import Mathlib

/-!
Screw motion: dual-number and quaternion Rodrigues rotators.

Shallow embedding of the notebook's core numeric routines over the reals:
`DualNumber` (with `__add__`, `__mul__`, `sin`, `cos`), the dual Rodrigues
rotator `rodrigues_rotation`, the `Quaternion` class (`normalize`,
`to_rotation_matrix`, `rotate_vector`) and the Rodrigues-Hamilton rotator
`rodrigues_hamilton_rotation`.

Machine floats are embedded as real numbers; `np.linalg.norm` is the
Euclidean norm (a square root).  Python's in-place `a /= np.linalg.norm(a)`
mutates the caller's numpy array, so both rotators are embedded as functions
returning a pair: the screw vector they return and the value the caller's
axis array holds after the call.  Division by zero follows Lean's total
convention `x / 0 = 0` (numpy instead produces NaN/Inf components with a
warning; in both semantics the call completes and returns a value rather
than raising an error, which is what matters for the error-handling claims:
the source contains no validation and no raise statement).
-/

namespace Screw

noncomputable section

/-- Embeds the notebook's `DualNumber` class: a real part and a dual part. -/
structure DualNumber where
  real : ℝ
  dual : ℝ

namespace DualNumber

/-- `__add__`: componentwise sum. -/
def add (a b : DualNumber) : DualNumber :=
  ⟨a.real + b.real, a.dual + b.dual⟩

/-- `__mul__`: real part is the product of real parts; dual part keeps only
the cross terms (`self.real * other.dual + self.dual * other.real`). -/
def mul (a b : DualNumber) : DualNumber :=
  ⟨a.real * b.real, a.real * b.dual + a.dual * b.real⟩

/-- `DualNumber.sin`: `DualNumber(np.sin(self.real), self.dual * np.cos(self.real))`. -/
def sin (x : DualNumber) : DualNumber :=
  ⟨Real.sin x.real, x.dual * Real.cos x.real⟩

/-- `DualNumber.cos`: `DualNumber(np.cos(self.real), -self.dual * np.sin(self.real))`. -/
def cos (x : DualNumber) : DualNumber :=
  ⟨Real.cos x.real, -x.dual * Real.sin x.real⟩

end DualNumber

/-- A 3-component numpy array of floats, embedded over the reals. -/
structure Vec3 where
  x : ℝ
  y : ℝ
  z : ℝ

namespace Vec3

/-- Componentwise sum (`numpy +`). -/
def add (v w : Vec3) : Vec3 := ⟨v.x + w.x, v.y + w.y, v.z + w.z⟩

/-- Componentwise difference (`numpy -`). -/
def sub (v w : Vec3) : Vec3 := ⟨v.x - w.x, v.y - w.y, v.z - w.z⟩

/-- Scalar multiple (`numpy *` with a scalar). -/
def smul (v : Vec3) (s : ℝ) : Vec3 := ⟨v.x * s, v.y * s, v.z * s⟩

/-- `np.dot` on 3-vectors. -/
def dot (v w : Vec3) : ℝ := v.x * w.x + v.y * w.y + v.z * w.z

/-- `np.cross` on 3-vectors. -/
def cross (v w : Vec3) : Vec3 :=
  ⟨v.y * w.z - v.z * w.y, v.z * w.x - v.x * w.z, v.x * w.y - v.y * w.x⟩

/-- `np.linalg.norm`: the Euclidean norm. -/
def norm (v : Vec3) : ℝ := Real.sqrt (v.x ^ 2 + v.y ^ 2 + v.z ^ 2)

end Vec3

/-- The in-place `a /= np.linalg.norm(a)` both rotators perform on entry:
each component of the axis divided by the Euclidean norm of the axis. -/
def unitAxis (a : Vec3) : Vec3 :=
  ⟨a.x / a.norm, a.y / a.norm, a.z / a.norm⟩

/-- Embeds `rodrigues_rotation(v, a, theta_dual)`.  The first component of
the result is the returned screw vector `v_screw`; the second component is
the value the caller's axis array holds after the call (the function divides
`a` by its norm in place before using it). -/
def rodrigues_rotation (v a : Vec3) (theta_dual : DualNumber) : Vec3 × Vec3 :=
  let a1 := unitAxis a
  let v_rot :=
    ((v.smul (Real.cos theta_dual.real)).add
      ((Vec3.cross a1 v).smul (Real.sin theta_dual.real))).add
      (a1.smul (Vec3.dot a1 v * (1 - Real.cos theta_dual.real)))
  let v_screw := v_rot.add (a1.smul theta_dual.dual)
  (v_screw, a1)

/-- Embeds the notebook's `Quaternion` class: scalar part `l_0`, vector part
`(l_1, l_2, l_3)`. -/
structure Quaternion where
  l_0 : ℝ
  l_1 : ℝ
  l_2 : ℝ
  l_3 : ℝ

namespace Quaternion

/-- The Euclidean 4-norm `np.sqrt(l_0**2 + l_1**2 + l_2**2 + l_3**2)`
computed inside `normalize`. -/
def norm4 (q : Quaternion) : ℝ :=
  Real.sqrt (q.l_0 ^ 2 + q.l_1 ^ 2 + q.l_2 ^ 2 + q.l_3 ^ 2)

/-- `Quaternion.normalize`: divide every component by the 4-norm.  The
source performs the division unconditionally: there is no zero-norm check. -/
def normalize (q : Quaternion) : Quaternion :=
  ⟨q.l_0 / q.norm4, q.l_1 / q.norm4, q.l_2 / q.norm4, q.l_3 / q.norm4⟩

/-- `Quaternion.rotate_vector` with `to_rotation_matrix` inlined: the 3x3
rotation matrix built from `l_0 .. l_3` applied to `v` (`rot_mat @ v`). -/
def rotate_vector (q : Quaternion) (v : Vec3) : Vec3 :=
  ⟨(1 - 2 * q.l_2 ^ 2 - 2 * q.l_3 ^ 2) * v.x
      + (2 * q.l_1 * q.l_2 - 2 * q.l_3 * q.l_0) * v.y
      + (2 * q.l_1 * q.l_3 + 2 * q.l_2 * q.l_0) * v.z,
    (2 * q.l_1 * q.l_2 + 2 * q.l_3 * q.l_0) * v.x
      + (1 - 2 * q.l_1 ^ 2 - 2 * q.l_3 ^ 2) * v.y
      + (2 * q.l_2 * q.l_3 - 2 * q.l_1 * q.l_0) * v.z,
    (2 * q.l_1 * q.l_3 - 2 * q.l_2 * q.l_0) * v.x
      + (2 * q.l_2 * q.l_3 + 2 * q.l_1 * q.l_0) * v.y
      + (1 - 2 * q.l_1 ^ 2 - 2 * q.l_2 ^ 2) * v.z⟩

end Quaternion

/-- Embeds `rodrigues_hamilton_rotation(v, a, theta, d)`.  As with the dual
rotator, the result pairs the returned screw vector with the post-call value
of the caller's axis array (mutated in place by `a /= np.linalg.norm(a)`). -/
def rodrigues_hamilton_rotation (v a : Vec3) (theta d : ℝ) : Vec3 × Vec3 :=
  let a1 := unitAxis a
  let lambda_0 := Real.cos (theta / 2)
  let lambda_vec := a1.smul (Real.sin (theta / 2))
  let q := (Quaternion.mk lambda_0 lambda_vec.x lambda_vec.y lambda_vec.z).normalize
  let v_rot := q.rotate_vector v
  let v_screw := v_rot.add (a1.smul d)
  (v_screw, a1)

/-! ## Helper lemmas -/

lemma normSq_eq (a : Vec3) : a.norm ^ 2 = a.x ^ 2 + a.y ^ 2 + a.z ^ 2 :=
  Real.sq_sqrt (by positivity)

lemma unitAxis_normSq (a : Vec3) (h : a.norm ≠ 0) :
    (unitAxis a).x ^ 2 + (unitAxis a).y ^ 2 + (unitAxis a).z ^ 2 = 1 := by
  have h2 := normSq_eq a
  field_simp [unitAxis]
  linarith

lemma unitAxis_of_norm_one (a : Vec3) (h : a.norm = 1) : unitAxis a = a := by
  simp [unitAxis, h]

/-- The normalized half-angle quaternion applied to `v` agrees with the
classical Rodrigues rotation formula, for a unit axis `u`. -/
lemma hamilton_rot_eq_rodrigues (v u : Vec3) (theta : ℝ)
    (hu : u.x ^ 2 + u.y ^ 2 + u.z ^ 2 = 1) :
    Quaternion.rotate_vector
        (Quaternion.normalize
          ⟨Real.cos (theta / 2), u.x * Real.sin (theta / 2),
            u.y * Real.sin (theta / 2), u.z * Real.sin (theta / 2)⟩) v
      = ((v.smul (Real.cos theta)).add
          ((Vec3.cross u v).smul (Real.sin theta))).add
          (u.smul (Vec3.dot u v * (1 - Real.cos theta))) := by
  have hsc : Real.sin (theta / 2) ^ 2 + Real.cos (theta / 2) ^ 2 = 1 :=
    Real.sin_sq_add_cos_sq _
  have hn : Quaternion.norm4
      ⟨Real.cos (theta / 2), u.x * Real.sin (theta / 2),
        u.y * Real.sin (theta / 2), u.z * Real.sin (theta / 2)⟩ = 1 := by
    unfold Quaternion.norm4
    rw [show Real.cos (theta / 2) ^ 2 + (u.x * Real.sin (theta / 2)) ^ 2
          + (u.y * Real.sin (theta / 2)) ^ 2 + (u.z * Real.sin (theta / 2)) ^ 2 = 1 from by
        linear_combination Real.sin (theta / 2) ^ 2 * hu + hsc]
    exact Real.sqrt_one
  have hcos2 : Real.cos theta = 2 * Real.cos (theta / 2) ^ 2 - 1 := by
    have h := Real.cos_two_mul (theta / 2)
    rw [show 2 * (theta / 2) = theta by ring] at h
    exact h
  have hcos : Real.cos theta = 1 - 2 * Real.sin (theta / 2) ^ 2 := by
    linear_combination hcos2 + 2 * hsc
  have hsin : Real.sin theta = 2 * Real.sin (theta / 2) * Real.cos (theta / 2) := by
    have h := Real.sin_two_mul (theta / 2)
    rw [show 2 * (theta / 2) = theta by ring] at h
    exact h
  simp only [Quaternion.normalize, hn, div_one, Quaternion.rotate_vector,
    Vec3.smul, Vec3.add, Vec3.cross, Vec3.dot, hcos, hsin]
  rw [Vec3.mk.injEq]
  refine ⟨?_, ?_, ?_⟩
  · linear_combination (-2) * Real.sin (theta / 2) ^ 2 * v.x * hu
  · linear_combination (-2) * Real.sin (theta / 2) ^ 2 * v.y * hu
  · linear_combination (-2) * Real.sin (theta / 2) ^ 2 * v.z * hu

/-- Both pipelines produce the same screw vector whenever the axis has
nonzero norm. -/
lemma pipelines_agree (v a : Vec3) (theta d : ℝ) (h : a.norm ≠ 0) :
    (rodrigues_hamilton_rotation v a theta d).1
      = (rodrigues_rotation v a ⟨theta, d⟩).1 := by
  have hu := unitAxis_normSq a h
  show (Quaternion.rotate_vector
        (Quaternion.normalize
          ⟨Real.cos (theta / 2), (unitAxis a).x * Real.sin (theta / 2),
            (unitAxis a).y * Real.sin (theta / 2),
            (unitAxis a).z * Real.sin (theta / 2)⟩) v).add
        ((unitAxis a).smul d)
      = (((v.smul (Real.cos theta)).add
          ((Vec3.cross (unitAxis a) v).smul (Real.sin theta))).add
          ((unitAxis a).smul (Vec3.dot (unitAxis a) v * (1 - Real.cos theta)))).add
          ((unitAxis a).smul d)
  exact congrArg (fun w => w.add ((unitAxis a).smul d))
    (hamilton_rot_eq_rodrigues v (unitAxis a) theta hu)

/-- Unfolding lemma: the screw vector the dual rotator returns. -/
lemma rod_result (v a : Vec3) (angle : DualNumber) :
    (rodrigues_rotation v a angle).1
      = (((v.smul (Real.cos angle.real)).add
          ((Vec3.cross (unitAxis a) v).smul (Real.sin angle.real))).add
          ((unitAxis a).smul (Vec3.dot (unitAxis a) v * (1 - Real.cos angle.real)))).add
          ((unitAxis a).smul angle.dual) := rfl

/-- Unfolding lemma: the post-call axis of the dual rotator. -/
lemma rod_axis (v a : Vec3) (angle : DualNumber) :
    (rodrigues_rotation v a angle).2 = unitAxis a := rfl

/-- Unfolding lemma: the screw vector the quaternion rotator returns. -/
lemma ham_result (v a : Vec3) (theta d : ℝ) :
    (rodrigues_hamilton_rotation v a theta d).1
      = (Quaternion.rotate_vector
          (Quaternion.normalize
            ⟨Real.cos (theta / 2), (unitAxis a).x * Real.sin (theta / 2),
              (unitAxis a).y * Real.sin (theta / 2),
              (unitAxis a).z * Real.sin (theta / 2)⟩) v).add
          ((unitAxis a).smul d) := rfl

/-- Unfolding lemma: the post-call axis of the quaternion rotator. -/
lemma ham_axis (v a : Vec3) (theta d : ℝ) :
    (rodrigues_hamilton_rotation v a theta d).2 = unitAxis a := rfl

/-- Scalar identities for the Rodrigues screw formula over a unit axis
`(ux, uy, uz)`: the axial dot product picks up exactly the dual part, and
each component of the part orthogonal to the axis is the rigid rotation of
the corresponding perpendicular component of `v`. -/
lemma rod_screw_identities (ux uy uz vx vy vz C S dl p rx ry rz : ℝ)
    (hu : ux ^ 2 + uy ^ 2 + uz ^ 2 = 1)
    (hp : p = ux * vx + uy * vy + uz * vz)
    (hrx : rx = vx * C + (uy * vz - uz * vy) * S + ux * (p * (1 - C)) + ux * dl)
    (hry : ry = vy * C + (uz * vx - ux * vz) * S + uy * (p * (1 - C)) + uy * dl)
    (hrz : rz = vz * C + (ux * vy - uy * vx) * S + uz * (p * (1 - C)) + uz * dl) :
    (ux * rx + uy * ry + uz * rz = p + dl) ∧
      (rx - ux * (ux * rx + uy * ry + uz * rz)
        = (vx - ux * p) * C + (uy * (vz - uz * p) - uz * (vy - uy * p)) * S) ∧
      (ry - uy * (ux * rx + uy * ry + uz * rz)
        = (vy - uy * p) * C + (uz * (vx - ux * p) - ux * (vz - uz * p)) * S) ∧
      (rz - uz * (ux * rx + uy * ry + uz * rz)
        = (vz - uz * p) * C + (ux * (vy - uy * p) - uy * (vx - ux * p)) * S) := by
  have h1 : ux * rx + uy * ry + uz * rz = p + dl := by
    rw [hrx, hry, hrz, hp]
    linear_combination ((ux * vx + uy * vy + uz * vz) * (1 - C) + dl) * hu
  refine ⟨h1, ?_, ?_, ?_⟩
  · rw [h1, hrx, hp]; ring
  · rw [h1, hry, hp]; ring
  · rw [h1, hrz, hp]; ring

/-- Scalar identity for norm preservation: for a unit axis, the squared
norm of the component of the rotated vector orthogonal to the axis equals
the squared norm of the component of `v` orthogonal to the axis. -/
lemma rot_normSq_identity (ax ay az vx vy vz C S p rx ry rz : ℝ)
    (hA : ax ^ 2 + ay ^ 2 + az ^ 2 = 1)
    (hsc : S ^ 2 + C ^ 2 = 1)
    (hp : p = ax * vx + ay * vy + az * vz)
    (hrx : rx = vx * C + (ay * vz - az * vy) * S + ax * (p * (1 - C)))
    (hry : ry = vy * C + (az * vx - ax * vz) * S + ay * (p * (1 - C)))
    (hrz : rz = vz * C + (ax * vy - ay * vx) * S + az * (p * (1 - C))) :
    (rx - ax * (ax * rx + ay * ry + az * rz)) ^ 2
        + (ry - ay * (ax * rx + ay * ry + az * rz)) ^ 2
        + (rz - az * (ax * rx + ay * ry + az * rz)) ^ 2
      = (vx - ax * p) ^ 2 + (vy - ay * p) ^ 2 + (vz - az * p) ^ 2 := by
  have h1 : ax * rx + ay * ry + az * rz = p := by
    rw [hrx, hry, hrz, hp]
    linear_combination ((ax * vx + ay * vy + az * vz) * (1 - C)) * hA
  have h2 : rx ^ 2 + ry ^ 2 + rz ^ 2 = vx ^ 2 + vy ^ 2 + vz ^ 2 := by
    rw [hrx, hry, hrz, hp]
    linear_combination
      (vz ^ 2 * S ^ 2 + vy ^ 2 * S ^ 2 + vx ^ 2 - vx ^ 2 * C ^ 2
          + az ^ 2 * vz ^ 2 - 2 * az ^ 2 * vz ^ 2 * C + az ^ 2 * vz ^ 2 * C ^ 2
          + 2 * ay * az * vy * vz - 4 * ay * az * vy * vz * C
          + 2 * ay * az * vy * vz * C ^ 2
          + ay ^ 2 * vy ^ 2 - 2 * ay ^ 2 * vy ^ 2 * C + ay ^ 2 * vy ^ 2 * C ^ 2
          + 2 * ax * az * vx * vz - 4 * ax * az * vx * vz * C
          + 2 * ax * az * vx * vz * C ^ 2
          + 2 * ax * ay * vx * vy - 4 * ax * ay * vx * vy * C
          + 2 * ax * ay * vx * vy * C ^ 2
          + ax ^ 2 * vx ^ 2 - 2 * ax ^ 2 * vx ^ 2 * C + ax ^ 2 * vx ^ 2 * C ^ 2) * hA
        + (vz ^ 2 + vy ^ 2 - az ^ 2 * vz ^ 2 + az ^ 2 * vx ^ 2
          - 2 * ay * az * vy * vz - ay ^ 2 * vy ^ 2 + ay ^ 2 * vx ^ 2
          - 2 * ax * az * vx * vz - 2 * ax * ay * vx * vy) * hsc
  linear_combination h2 + (ax ^ 2 + ay ^ 2 + az ^ 2 - 2)
    * (ax * rx + ay * ry + az * rz + p) * h1 - 2 * p * hp

/-! ## Claim theorems -/

/-- C1: for every unit axis `a`, vector `v`, angle and displacement, the
dual-number pipeline `rodrigues_rotation v a ⟨theta, d⟩` and the quaternion
pipeline `rodrigues_hamilton_rotation v a theta d` return the same screw
vector, exactly, over the real-number embedding. -/
theorem cross_pipeline_equivalence (v a : Vec3) (theta d : ℝ) (h : a.norm = 1) :
    (rodrigues_rotation v a ⟨theta, d⟩).1
      = (rodrigues_hamilton_rotation v a theta d).1 :=
  (pipelines_agree v a theta d (by rw [h]; exact one_ne_zero)).symm

/-- Witness for C1 at `v = (1,0,0)`, `a = (0,0,1)`, `theta = 1`, `d = 2`. -/
theorem cross_pipeline_equivalence_witness :
    Vec3.norm ⟨0, 0, 1⟩ = 1 ∧
      (rodrigues_rotation ⟨1, 0, 0⟩ ⟨0, 0, 1⟩ ⟨1, 2⟩).1
        = (rodrigues_hamilton_rotation ⟨1, 0, 0⟩ ⟨0, 0, 1⟩ 1 2).1 := by
  have hn : Vec3.norm ⟨0, 0, 1⟩ = 1 := by norm_num [Vec3.norm]
  exact ⟨hn, cross_pipeline_equivalence _ _ _ _ hn⟩

/-- C5: for a nonzero axis with unit direction `u = unitAxis a`, the dual
rotator's result dotted with `u` is `v · u + angle.dual`; its component
orthogonal to `u` is the component of `v` orthogonal to `u` rotated rigidly
by `angle.real`; and the dual part enters only as the translation `dual · u`
added to the pure rotation (only `angle.real` reaches the trigonometry). -/
theorem dual_rotator_postcondition (v a : Vec3) (angle : DualNumber)
    (h : a.norm ≠ 0) :
    Vec3.dot (rodrigues_rotation v a angle).1 (unitAxis a)
        = Vec3.dot v (unitAxis a) + angle.dual ∧
      (rodrigues_rotation v a angle).1.sub
          ((unitAxis a).smul
            (Vec3.dot (unitAxis a) (rodrigues_rotation v a angle).1))
        = ((v.sub ((unitAxis a).smul (Vec3.dot (unitAxis a) v))).smul
            (Real.cos angle.real)).add
            ((Vec3.cross (unitAxis a)
              (v.sub ((unitAxis a).smul (Vec3.dot (unitAxis a) v)))).smul
              (Real.sin angle.real)) ∧
      (rodrigues_rotation v a angle).1
        = ((rodrigues_rotation v a ⟨angle.real, 0⟩).1).add
            ((unitAxis a).smul angle.dual) := by
  have hu := unitAxis_normSq a h
  have hids := rod_screw_identities (unitAxis a).x (unitAxis a).y (unitAxis a).z
    v.x v.y v.z (Real.cos angle.real) (Real.sin angle.real) angle.dual
    _ _ _ _ hu rfl rfl rfl rfl
  refine ⟨?_, ?_, ?_⟩
  · rw [rod_result]
    simp only [Vec3.add, Vec3.smul, Vec3.cross, Vec3.dot]
    linear_combination hids.1
  · rw [rod_result]
    simp only [Vec3.add, Vec3.sub, Vec3.smul, Vec3.cross, Vec3.dot]
    rw [Vec3.mk.injEq]
    refine ⟨?_, ?_, ?_⟩
    · linear_combination hids.2.1
    · linear_combination hids.2.2.1
    · linear_combination hids.2.2.2
  · rw [rod_result, rod_result]
    dsimp only
    simp only [Vec3.add, Vec3.smul, Vec3.cross, Vec3.dot]
    rw [Vec3.mk.injEq]
    exact ⟨by ring, by ring, by ring⟩

/-- Witness for C5 at `v = (1,2,3)`, `a = (0,0,1)`, `angle = 1 + 4ε`. -/
theorem dual_rotator_postcondition_witness :
    Vec3.norm ⟨0, 0, 1⟩ ≠ 0 ∧
      (Vec3.dot (rodrigues_rotation ⟨1, 2, 3⟩ ⟨0, 0, 1⟩ ⟨1, 4⟩).1
            (unitAxis ⟨0, 0, 1⟩)
          = Vec3.dot ⟨1, 2, 3⟩ (unitAxis ⟨0, 0, 1⟩) + (4 : ℝ) ∧
        (rodrigues_rotation ⟨1, 2, 3⟩ ⟨0, 0, 1⟩ ⟨1, 4⟩).1.sub
            ((unitAxis ⟨0, 0, 1⟩).smul
              (Vec3.dot (unitAxis ⟨0, 0, 1⟩)
                (rodrigues_rotation ⟨1, 2, 3⟩ ⟨0, 0, 1⟩ ⟨1, 4⟩).1))
          = ((Vec3.sub ⟨1, 2, 3⟩
                ((unitAxis ⟨0, 0, 1⟩).smul
                  (Vec3.dot (unitAxis ⟨0, 0, 1⟩) ⟨1, 2, 3⟩))).smul
              (Real.cos (1 : ℝ))).add
              ((Vec3.cross (unitAxis ⟨0, 0, 1⟩)
                (Vec3.sub ⟨1, 2, 3⟩
                  ((unitAxis ⟨0, 0, 1⟩).smul
                    (Vec3.dot (unitAxis ⟨0, 0, 1⟩) ⟨1, 2, 3⟩)))).smul
                (Real.sin (1 : ℝ))) ∧
        (rodrigues_rotation ⟨1, 2, 3⟩ ⟨0, 0, 1⟩ ⟨1, 4⟩).1
          = ((rodrigues_rotation ⟨1, 2, 3⟩ ⟨0, 0, 1⟩ ⟨1, 0⟩).1).add
              ((unitAxis ⟨0, 0, 1⟩).smul (4 : ℝ))) := by
  have hn : Vec3.norm ⟨0, 0, 1⟩ ≠ 0 := by norm_num [Vec3.norm]
  exact ⟨hn, dual_rotator_postcondition ⟨1, 2, 3⟩ ⟨0, 0, 1⟩ ⟨1, 4⟩ hn⟩

/-- C8: with angle zero both rotators return exactly `v + d * a` for a unit
axis `a`; in particular with `d = 0` they return `v` unchanged. -/
theorem theta_zero_pure_translation (v a : Vec3) (d : ℝ) (h : a.norm = 1) :
    (rodrigues_rotation v a ⟨0, d⟩).1 = v.add (a.smul d) ∧
      (rodrigues_hamilton_rotation v a 0 d).1 = v.add (a.smul d) ∧
      (rodrigues_rotation v a ⟨0, 0⟩).1 = v ∧
      (rodrigues_hamilton_rotation v a 0 0).1 = v := by
  have hne : a.norm ≠ 0 := by rw [h]; exact one_ne_zero
  have key : ∀ e : ℝ, (rodrigues_rotation v a ⟨0, e⟩).1 = v.add (a.smul e) := by
    intro e
    rw [rod_result, unitAxis_of_norm_one a h]
    dsimp only
    simp only [Real.cos_zero, Real.sin_zero, Vec3.add, Vec3.smul, Vec3.cross,
      Vec3.dot]
    rw [Vec3.mk.injEq]
    exact ⟨by ring, by ring, by ring⟩
  have ham0 : ∀ e : ℝ,
      (rodrigues_hamilton_rotation v a 0 e).1 = v.add (a.smul e) := fun e =>
    (pipelines_agree v a 0 e hne).trans (key e)
  have hv : v.add (a.smul 0) = v := by
    simp [Vec3.add, Vec3.smul]
  exact ⟨key d, ham0 d, (key 0).trans hv, (ham0 0).trans hv⟩

/-- Witness for C8 at `v = (1,2,3)`, `a = (0,0,1)`, `d = 5`. -/
theorem theta_zero_pure_translation_witness :
    Vec3.norm ⟨0, 0, 1⟩ = 1 ∧
      ((rodrigues_rotation ⟨1, 2, 3⟩ ⟨0, 0, 1⟩ ⟨0, 5⟩).1
          = Vec3.add ⟨1, 2, 3⟩ (Vec3.smul ⟨0, 0, 1⟩ 5) ∧
        (rodrigues_hamilton_rotation ⟨1, 2, 3⟩ ⟨0, 0, 1⟩ 0 5).1
          = Vec3.add ⟨1, 2, 3⟩ (Vec3.smul ⟨0, 0, 1⟩ 5) ∧
        (rodrigues_rotation ⟨1, 2, 3⟩ ⟨0, 0, 1⟩ ⟨0, 0⟩).1 = ⟨1, 2, 3⟩ ∧
        (rodrigues_hamilton_rotation ⟨1, 2, 3⟩ ⟨0, 0, 1⟩ 0 0).1 = ⟨1, 2, 3⟩) := by
  have hn : Vec3.norm ⟨0, 0, 1⟩ = 1 := by norm_num [Vec3.norm]
  exact ⟨hn, theta_zero_pure_translation ⟨1, 2, 3⟩ ⟨0, 0, 1⟩ 5 hn⟩

/-- Norm preservation for the dual rotator: after removing the displacement
term, the component of the result orthogonal to the unit axis has the same
Euclidean magnitude as the corresponding component of `v`. -/
lemma rod_rotpart_norm_preserved (v a : Vec3) (theta d : ℝ) (h : a.norm = 1) :
    Vec3.norm (((rodrigues_rotation v a ⟨theta, d⟩).1.sub (a.smul d)).sub
        (a.smul (Vec3.dot a
          ((rodrigues_rotation v a ⟨theta, d⟩).1.sub (a.smul d)))))
      = Vec3.norm (v.sub (a.smul (Vec3.dot a v))) := by
  have hA : a.x ^ 2 + a.y ^ 2 + a.z ^ 2 = 1 := by
    have h2 := normSq_eq a
    rw [h] at h2
    linarith
  have hsc : Real.sin theta ^ 2 + Real.cos theta ^ 2 = 1 :=
    Real.sin_sq_add_cos_sq theta
  have hres : (rodrigues_rotation v a ⟨theta, d⟩).1.sub (a.smul d)
      = ((v.smul (Real.cos theta)).add
          ((Vec3.cross a v).smul (Real.sin theta))).add
          (a.smul (Vec3.dot a v * (1 - Real.cos theta))) := by
    rw [rod_result, unitAxis_of_norm_one a h]
    dsimp only
    simp only [Vec3.add, Vec3.sub, Vec3.smul, Vec3.cross, Vec3.dot]
    rw [Vec3.mk.injEq]
    exact ⟨by ring, by ring, by ring⟩
  rw [hres]
  unfold Vec3.norm
  congr 1
  simp only [Vec3.add, Vec3.sub, Vec3.smul, Vec3.cross, Vec3.dot]
  linear_combination rot_normSq_identity a.x a.y a.z v.x v.y v.z
    (Real.cos theta) (Real.sin theta) _ _ _ _ hA hsc rfl rfl rfl rfl

/-- C9: for both rotators over a unit axis, the component of the result
orthogonal to the axis, after subtracting the displacement term `d * a`,
has the same Euclidean magnitude as the component of `v` orthogonal to the
axis. -/
theorem rotational_norm_preservation (v a : Vec3) (theta d : ℝ)
    (h : a.norm = 1) :
    Vec3.norm (((rodrigues_rotation v a ⟨theta, d⟩).1.sub (a.smul d)).sub
        (a.smul (Vec3.dot a
          ((rodrigues_rotation v a ⟨theta, d⟩).1.sub (a.smul d)))))
      = Vec3.norm (v.sub (a.smul (Vec3.dot a v))) ∧
    Vec3.norm (((rodrigues_hamilton_rotation v a theta d).1.sub (a.smul d)).sub
        (a.smul (Vec3.dot a
          ((rodrigues_hamilton_rotation v a theta d).1.sub (a.smul d)))))
      = Vec3.norm (v.sub (a.smul (Vec3.dot a v))) := by
  have hne : a.norm ≠ 0 := by rw [h]; exact one_ne_zero
  refine ⟨rod_rotpart_norm_preserved v a theta d h, ?_⟩
  rw [pipelines_agree v a theta d hne]
  exact rod_rotpart_norm_preserved v a theta d h

/-- Witness for C9 at `v = (1,2,3)`, `a = (0,0,1)`, `theta = 1`, `d = 5`. -/
theorem rotational_norm_preservation_witness :
    Vec3.norm ⟨0, 0, 1⟩ = 1 ∧
      (Vec3.norm (((rodrigues_rotation ⟨1, 2, 3⟩ ⟨0, 0, 1⟩ ⟨1, 5⟩).1.sub
            (Vec3.smul ⟨0, 0, 1⟩ 5)).sub
          (Vec3.smul ⟨0, 0, 1⟩ (Vec3.dot ⟨0, 0, 1⟩
            ((rodrigues_rotation ⟨1, 2, 3⟩ ⟨0, 0, 1⟩ ⟨1, 5⟩).1.sub
              (Vec3.smul ⟨0, 0, 1⟩ 5)))))
        = Vec3.norm (Vec3.sub ⟨1, 2, 3⟩
            (Vec3.smul ⟨0, 0, 1⟩ (Vec3.dot ⟨0, 0, 1⟩ ⟨1, 2, 3⟩))) ∧
      Vec3.norm (((rodrigues_hamilton_rotation ⟨1, 2, 3⟩ ⟨0, 0, 1⟩ 1 5).1.sub
            (Vec3.smul ⟨0, 0, 1⟩ 5)).sub
          (Vec3.smul ⟨0, 0, 1⟩ (Vec3.dot ⟨0, 0, 1⟩
            ((rodrigues_hamilton_rotation ⟨1, 2, 3⟩ ⟨0, 0, 1⟩ 1 5).1.sub
              (Vec3.smul ⟨0, 0, 1⟩ 5)))))
        = Vec3.norm (Vec3.sub ⟨1, 2, 3⟩
            (Vec3.smul ⟨0, 0, 1⟩ (Vec3.dot ⟨0, 0, 1⟩ ⟨1, 2, 3⟩)))) := by
  have hn : Vec3.norm ⟨0, 0, 1⟩ = 1 := by norm_num [Vec3.norm]
  exact ⟨hn, rotational_norm_preservation ⟨1, 2, 3⟩ ⟨0, 0, 1⟩ 1 5 hn⟩

/-- Positive scalar multiples of the axis normalize to the same unit
vector. -/
lemma unitAxis_smul (a : Vec3) (c : ℝ) (hc : 0 < c) :
    unitAxis (a.smul c) = unitAxis a := by
  unfold unitAxis Vec3.smul Vec3.norm
  have hn : Real.sqrt ((a.x * c) ^ 2 + (a.y * c) ^ 2 + (a.z * c) ^ 2)
      = c * Real.sqrt (a.x ^ 2 + a.y ^ 2 + a.z ^ 2) := by
    rw [show (a.x * c) ^ 2 + (a.y * c) ^ 2 + (a.z * c) ^ 2
        = c ^ 2 * (a.x ^ 2 + a.y ^ 2 + a.z ^ 2) by ring,
      Real.sqrt_mul (sq_nonneg c), Real.sqrt_sq hc.le]
  rw [hn, Vec3.mk.injEq]
  dsimp only
  exact ⟨by rw [mul_comm a.x c]; exact mul_div_mul_left _ _ (ne_of_gt hc),
    by rw [mul_comm a.y c]; exact mul_div_mul_left _ _ (ne_of_gt hc),
    by rw [mul_comm a.z c]; exact mul_div_mul_left _ _ (ne_of_gt hc)⟩

/-- C10: both rotators return the same screw vector for axis `c * a` as for
axis `a`, for any positive scale `c` — the output depends on the axis only
through its direction, because each rotator normalizes the axis on entry. -/
theorem axis_scale_invariance (v a : Vec3) (c : ℝ) (angle : DualNumber)
    (theta d : ℝ) (_h : a ≠ ⟨0, 0, 0⟩) (hc : 0 < c) :
    (rodrigues_rotation v (a.smul c) angle).1
        = (rodrigues_rotation v a angle).1 ∧
      (rodrigues_hamilton_rotation v (a.smul c) theta d).1
        = (rodrigues_hamilton_rotation v a theta d).1 := by
  have hs := unitAxis_smul a c hc
  constructor
  · rw [rod_result, rod_result, hs]
  · rw [ham_result, ham_result, hs]

/-- Witness for C10 at `a = (0,0,1)`, `c = 2`. -/
theorem axis_scale_invariance_witness :
    (⟨0, 0, 1⟩ : Vec3) ≠ ⟨0, 0, 0⟩ ∧ (0 : ℝ) < 2 ∧
      ((rodrigues_rotation ⟨1, 2, 3⟩ (Vec3.smul ⟨0, 0, 1⟩ 2) ⟨1, 5⟩).1
          = (rodrigues_rotation ⟨1, 2, 3⟩ ⟨0, 0, 1⟩ ⟨1, 5⟩).1 ∧
        (rodrigues_hamilton_rotation ⟨1, 2, 3⟩ (Vec3.smul ⟨0, 0, 1⟩ 2) 1 5).1
          = (rodrigues_hamilton_rotation ⟨1, 2, 3⟩ ⟨0, 0, 1⟩ 1 5).1) := by
  have ha : (⟨0, 0, 1⟩ : Vec3) ≠ ⟨0, 0, 0⟩ := by
    intro hcontra
    have := congrArg Vec3.z hcontra
    norm_num at this
  exact ⟨ha, by norm_num,
    axis_scale_invariance ⟨1, 2, 3⟩ ⟨0, 0, 1⟩ 2 ⟨1, 5⟩ 1 5 ha (by norm_num)⟩

/-- C6: `DualNumber.__mul__` keeps only the cross terms in the dual part
(nilpotency of the dual unit) and is a total function of its two operands. -/
theorem dualNumber_mul_cross_terms (a b : DualNumber) :
    DualNumber.mul a b =
      ⟨a.real * b.real, a.real * b.dual + a.dual * b.real⟩ :=
  rfl

/-- C7: the dual sine and cosine are the first-order Taylor expansions of
sine and cosine around the real part, with the dual part as perturbation. -/
theorem dualNumber_sin_cos_taylor (x : DualNumber) :
    DualNumber.sin x = ⟨Real.sin x.real, x.dual * Real.cos x.real⟩ ∧
      DualNumber.cos x = ⟨Real.cos x.real, -x.dual * Real.sin x.real⟩ :=
  ⟨rfl, rfl⟩

/-- The zero axis normalizes (under the total-division convention) to the
zero vector: `0 / 0 = 0` componentwise. -/
lemma unitAxis_zero : unitAxis ⟨0, 0, 0⟩ = ⟨0, 0, 0⟩ := by
  simp [unitAxis, Vec3.norm]

/-- C2 counterexample: neither entry point fails on the zero axis — both
complete and return a 3-vector.  The source contains no validation, no
`InvalidAxis` error and no raise statement; the normalization simply
divides by the zero norm (numpy: NaN components with a warning; in the
total real embedding the axis terms vanish). -/
theorem zero_axis_no_error_counterexample :
    (rodrigues_rotation ⟨1, 0, 0⟩ ⟨0, 0, 0⟩ ⟨0, 0⟩).1 = ⟨1, 0, 0⟩ ∧
      (rodrigues_hamilton_rotation ⟨1, 0, 0⟩ ⟨0, 0, 0⟩ 0 0).1 = ⟨1, 0, 0⟩ := by
  constructor
  · rw [rod_result, unitAxis_zero]
    dsimp only
    simp only [Real.cos_zero, Real.sin_zero, Vec3.add, Vec3.smul, Vec3.cross,
      Vec3.dot]
    rw [Vec3.mk.injEq]
    norm_num
  · rw [ham_result, unitAxis_zero]
    dsimp only
    simp only [Quaternion.normalize, Quaternion.norm4,
      Quaternion.rotate_vector, Vec3.add, Vec3.smul, Real.sin_zero,
      Real.cos_zero, mul_zero, zero_mul, zero_div]
    rw [Vec3.mk.injEq]
    norm_num

/-- C2 amended: with axis `(0,0,0)` neither entry point raises an error;
both run the division by the zero norm and return a vector.  Under the
embedding's total division (`x / 0 = 0`) the dual rotator returns
`v * cos(theta.real)` and the quaternion rotator returns `v`; in IEEE
floats the returned components are NaN — in neither semantics is an
`InvalidAxis` failure signalled. -/
theorem zero_axis_no_error_amended (v : Vec3) (theta d : ℝ) :
    (rodrigues_rotation v ⟨0, 0, 0⟩ ⟨theta, d⟩).1 = v.smul (Real.cos theta) ∧
      (rodrigues_hamilton_rotation v ⟨0, 0, 0⟩ theta d).1 = v := by
  constructor
  · rw [rod_result, unitAxis_zero]
    dsimp only
    simp only [Vec3.add, Vec3.smul, Vec3.cross, Vec3.dot]
    rw [Vec3.mk.injEq]
    refine ⟨by ring, by ring, by ring⟩
  · rw [ham_result, unitAxis_zero]
    dsimp only
    simp only [Quaternion.normalize, Quaternion.norm4,
      Quaternion.rotate_vector, Vec3.add, Vec3.smul, mul_zero, zero_mul,
      zero_div]
    rw [Vec3.mk.injEq]
    refine ⟨by ring, by ring, by ring⟩

/-- C3 counterexample: the caller's axis does not hold the same components
after the call — with axis `(0,0,2)` the in-place `a /= np.linalg.norm(a)`
leaves the caller's array holding `(0,0,1)`. -/
theorem axis_mutation_counterexample :
    (rodrigues_rotation ⟨1, 0, 0⟩ ⟨0, 0, 2⟩ ⟨0, 0⟩).2 ≠ (⟨0, 0, 2⟩ : Vec3) := by
  have h4 : Vec3.norm ⟨0, 0, 2⟩ = 2 := by
    rw [Vec3.norm, show ((0 : ℝ) ^ 2 + 0 ^ 2 + 2 ^ 2 : ℝ) = 2 ^ 2 by norm_num,
      Real.sqrt_sq (by norm_num : (0 : ℝ) ≤ 2)]
  rw [rod_axis]
  simp only [unitAxis, h4]
  intro hcontra
  have hz := congrArg Vec3.z hcontra
  norm_num at hz

/-- C3 amended: both rotators overwrite the caller's axis in place with its
normalized value `a / ‖a‖`; the caller's axis is unchanged only when it
already has unit norm. -/
theorem axis_mutation_amended (v a : Vec3) (angle : DualNumber)
    (theta d : ℝ) :
    (rodrigues_rotation v a angle).2 = unitAxis a ∧
      (rodrigues_hamilton_rotation v a theta d).2 = unitAxis a ∧
      (a.norm = 1 →
        (rodrigues_rotation v a angle).2 = a ∧
          (rodrigues_hamilton_rotation v a theta d).2 = a) :=
  ⟨rod_axis v a angle, ham_axis v a theta d, fun h =>
    ⟨(rod_axis v a angle).trans (unitAxis_of_norm_one a h),
      (ham_axis v a theta d).trans (unitAxis_of_norm_one a h)⟩⟩

/-- Witness for the amended C3 at the unit axis `(0,0,1)`. -/
theorem axis_mutation_amended_witness :
    Vec3.norm ⟨0, 0, 1⟩ = 1 ∧
      ((rodrigues_rotation ⟨1, 2, 3⟩ ⟨0, 0, 1⟩ ⟨1, 5⟩).2 = ⟨0, 0, 1⟩ ∧
        (rodrigues_hamilton_rotation ⟨1, 2, 3⟩ ⟨0, 0, 1⟩ 1 5).2 = ⟨0, 0, 1⟩) := by
  have hn : Vec3.norm ⟨0, 0, 1⟩ = 1 := by norm_num [Vec3.norm]
  exact ⟨hn, (axis_mutation_amended ⟨1, 2, 3⟩ ⟨0, 0, 1⟩ ⟨1, 5⟩ 1 5).2.2 hn⟩

/-- C4 counterexample: `Quaternion.normalize` does not fail on the zero
quaternion — it divides by the zero 4-norm and returns a quaternion (all
components NaN in numpy; zero in the total real embedding). -/
theorem normalize_zero_counterexample :
    Quaternion.normalize ⟨0, 0, 0, 0⟩ = ⟨0, 0, 0, 0⟩ := by
  simp [Quaternion.normalize, Quaternion.norm4]

/-- C4 amended: `normalize` performs no zero-norm check and never raises;
for every quaternion with nonzero 4-norm it returns the quaternion with
each component divided by that norm — which then has unit 4-norm. -/
theorem normalize_amended (q : Quaternion) (h : q.norm4 ≠ 0) :
    Quaternion.normalize q
        = ⟨q.l_0 / q.norm4, q.l_1 / q.norm4, q.l_2 / q.norm4,
            q.l_3 / q.norm4⟩ ∧
      (Quaternion.normalize q).norm4 = 1 := by
  refine ⟨rfl, ?_⟩
  have hS : q.l_0 ^ 2 + q.l_1 ^ 2 + q.l_2 ^ 2 + q.l_3 ^ 2 = q.norm4 ^ 2 :=
    (Real.sq_sqrt (by positivity)).symm
  show Real.sqrt ((q.l_0 / q.norm4) ^ 2 + (q.l_1 / q.norm4) ^ 2
      + (q.l_2 / q.norm4) ^ 2 + (q.l_3 / q.norm4) ^ 2) = 1
  rw [show (q.l_0 / q.norm4) ^ 2 + (q.l_1 / q.norm4) ^ 2
      + (q.l_2 / q.norm4) ^ 2 + (q.l_3 / q.norm4) ^ 2 = 1 from by
    field_simp
    linear_combination hS]
  exact Real.sqrt_one

/-- Witness for the amended C4 at `q = (1,0,0,0)`. -/
theorem normalize_amended_witness :
    Quaternion.norm4 ⟨1, 0, 0, 0⟩ ≠ 0 ∧
      (Quaternion.normalize ⟨1, 0, 0, 0⟩
          = ⟨1 / Quaternion.norm4 ⟨1, 0, 0, 0⟩,
              0 / Quaternion.norm4 ⟨1, 0, 0, 0⟩,
              0 / Quaternion.norm4 ⟨1, 0, 0, 0⟩,
              0 / Quaternion.norm4 ⟨1, 0, 0, 0⟩⟩ ∧
        (Quaternion.normalize ⟨1, 0, 0, 0⟩).norm4 = 1) := by
  have hn : Quaternion.norm4 ⟨1, 0, 0, 0⟩ ≠ 0 := by
    norm_num [Quaternion.norm4]
  exact ⟨hn, normalize_amended ⟨1, 0, 0, 0⟩ hn⟩

end

end Screw
